import Mathlib

/-!
Verification of the react-component-development repository: a sortable and
selectable data table (`src/components/datatable.tsx`) and two variants of a
styled input field. Records are modelled as objects with an identity tag and
a list of named fields; JavaScript values that the table compares are
modelled as strings, integers and booleans, with `Option` standing for a
possibly missing (`undefined`) field.
-/

/-- A JavaScript value stored in a record field: the table's comparator
distinguishes strings and numbers; any other type falls through to the
equal branch. -/
inductive Value where
  | str : String → Value
  | num : Int → Value
  | boolean : Bool → Value
deriving DecidableEq, Repr

/-- A record (one table row): `ref` models the object's reference identity
(distinct objects may carry equal fields), `fields` its named attributes. -/
structure Rec where
  ref : Nat
  fields : List (String × Value)
deriving DecidableEq, Repr

/-- Property access `r[k]`: the first field named `k`, or `none` for a
missing property (JavaScript `undefined`). -/
def getField (r : Rec) (k : String) : Option Value :=
  (r.fields.find? (fun p => p.1 == k)).map (fun p => p.2)

/-- JavaScript `String(v)` on a possibly-undefined value, as used for the
table cell text `String(row[column.key])`. -/
def stringOfValue : Option Value → String
  | some (Value.str s) => s
  | some (Value.num n) => toString n
  | some (Value.boolean b) => cond b "true" "false"
  | none => "undefined"

/-- Sort direction, `'asc' | 'desc'` in the source. -/
inductive Direction where
  | asc : Direction
  | desc : Direction
deriving DecidableEq, Repr

/-- The `sortConfig` state: active key and direction. -/
structure SortConfig where
  key : String
  direction : Direction
deriving DecidableEq, Repr

/-- The column descriptor `{ key, header }`. -/
structure Column where
  key : String
  header : String
deriving DecidableEq, Repr

/-- The comparator passed to `sortableItems.sort` in `sortedData`: strings
compare lexicographically with direction-dependent sign, numbers by
(direction-dependent) difference, and any other combination of types
returns 0. -/
def compareRows (cfg : SortConfig) (a b : Rec) : Int :=
  match getField a cfg.key, getField b cfg.key with
  | some (Value.str x), some (Value.str y) =>
      if x < y then (match cfg.direction with | Direction.asc => -1 | Direction.desc => 1)
      else if y < x then (match cfg.direction with | Direction.asc => 1 | Direction.desc => -1)
      else 0
  | some (Value.num x), some (Value.num y) =>
      (match cfg.direction with | Direction.asc => x - y | Direction.desc => y - x)
  | _, _ => 0

/-- Whether `a` may stay before `b` under the comparator: `compareRows cfg a b ≤ 0`. -/
def sortLe (cfg : SortConfig) (a b : Rec) : Bool :=
  decide (compareRows cfg a b ≤ 0)

/-- Insert `a` into `l` before the first element it compares `≤` to; the
building block of the stable comparator sort that models
`Array.prototype.sort`. -/
def orderedInsert {α : Type} (le : α → α → Bool) (a : α) : List α → List α
  | [] => [a]
  | b :: t => if le a b then a :: b :: t else b :: orderedInsert le a t

/-- Stable insertion sort by a boolean comparator; models the (stable, per
ECMAScript) `Array.prototype.sort` call on the copied array. -/
def sortRows {α : Type} (le : α → α → Bool) (l : List α) : List α :=
  l.foldr (orderedInsert le) []

/-- The `sortedData` memo: a fresh copy of `data`, sorted by the comparator
when a `sortConfig` is present, unchanged otherwise. -/
def sortedData (data : List Rec) (sortConfig : Option SortConfig) : List Rec :=
  match sortConfig with
  | none => data
  | some cfg => sortRows (sortLe cfg) data

/-- The `handleSort` header-click handler: direction becomes `desc` exactly
when the clicked key is already the active ascending key, else `asc`; the
new config always carries the clicked key. -/
def handleSort (sortConfig : Option SortConfig) (key : String) : Option SortConfig :=
  let direction : Direction :=
    match sortConfig with
    | some c => if c.key == key && c.direction == Direction.asc then Direction.desc else Direction.asc
    | none => Direction.asc
  some { key := key, direction := direction }

/-- The `handleRowClick` handler's new selection list: remove the row (all
`!==`-equal occurrences) when present, append it otherwise. The same list
is stored in state and passed to `onRowSelect`. -/
def handleRowClick (selectedRows : List Rec) (row : Rec) : List Rec :=
  if selectedRows.contains row then
    selectedRows.filter (fun r => !(r == row))
  else
    selectedRows ++ [row]

/-- Text of one body cell, `String(row[column.key])`. -/
def cellText (r : Rec) (k : String) : String :=
  stringOfValue (getField r k)

/-- What the component returns: the loading placeholder, the empty-state
placeholder, or the table whose body rows carry the rendered cell texts. -/
inductive RenderOutput where
  | loadingPlaceholder : RenderOutput
  | emptyPlaceholder : RenderOutput
  | table : List (List String) → RenderOutput
deriving DecidableEq, Repr

/-- The `DataTable` render: the `loading` early return comes first, then the
`data.length === 0` early return, then the table over `sortedData`. -/
def renderDataTable (data : List Rec) (columns : List Column) (loading : Bool)
    (sortConfig : Option SortConfig) : RenderOutput :=
  if loading then RenderOutput.loadingPlaceholder
  else if data.length == 0 then RenderOutput.emptyPlaceholder
  else RenderOutput.table
    ((sortedData data sortConfig).map (fun r => columns.map (fun c => cellText r c.key)))

/-- The `DataTable` component's live state: the `data` prop together with the
`selectedRows` and `sortConfig` `useState` cells. -/
structure TableState where
  data : List Rec
  selectedRows : List Rec
  sortConfig : Option SortConfig
deriving DecidableEq, Repr

/-- Mount state: the initial `data` prop, `useState([])` for the selection and
`useState(null)` for the sort config. -/
def initTableState (d : List Rec) : TableState :=
  { data := d, selectedRows := [], sortConfig := none }

/-- One event on a mounted table: a click on a rendered row (rows are drawn
from `sortedData`, a permutation of `data`, hence the membership premise), a
header click, or a re-render with a new `data` prop (which leaves both
`useState` cells untouched). -/
inductive TableStep : TableState → TableState → Prop where
  | rowClick (s : TableState) (r : Rec) (h : r ∈ s.data) :
      TableStep s { data := s.data, selectedRows := handleRowClick s.selectedRows r,
                    sortConfig := s.sortConfig }
  | headerClick (s : TableState) (k : String) :
      TableStep s { data := s.data, selectedRows := s.selectedRows,
                    sortConfig := handleSort s.sortConfig k }
  | setData (s : TableState) (d : List Rec) :
      TableStep s { data := d, selectedRows := s.selectedRows, sortConfig := s.sortConfig }

/-- Reachability through any sequence of table events. -/
inductive TableReaches : TableState → TableState → Prop where
  | refl (s : TableState) : TableReaches s s
  | tail {s t u : TableState} : TableReaches s t → TableStep t u → TableReaches s u

/-- One event on a table whose `data` prop is held fixed: only row clicks and
header clicks. -/
inductive TableStepFixed : TableState → TableState → Prop where
  | rowClick (s : TableState) (r : Rec) (h : r ∈ s.data) :
      TableStepFixed s { data := s.data, selectedRows := handleRowClick s.selectedRows r,
                         sortConfig := s.sortConfig }
  | headerClick (s : TableState) (k : String) :
      TableStepFixed s { data := s.data, selectedRows := s.selectedRows,
                         sortConfig := handleSort s.sortConfig k }

/-- Reachability through row clicks and header clicks only. -/
inductive TableReachesFixed : TableState → TableState → Prop where
  | refl (s : TableState) : TableReachesFixed s s
  | tail {s t u : TableState} : TableReachesFixed s t → TableStepFixed t u → TableReachesFixed s u

/-! ### The input field with clear action and password mode (`src/unnamed/part_000`) -/

/-- Local state of the stateful `InputField` variant: the text buffer
(`useState(controlledValue || '')`) and the password-visibility flag
(`useState(false)`). -/
structure FieldState where
  value : String
  showPassword : Bool
deriving DecidableEq, Repr

/-- Mount state: the buffer is seeded from the controlled value, empty when
it is absent; the visibility flag starts false. -/
def initFieldState (controlledValue : Option String) : FieldState :=
  { value := (match controlledValue with | some s => s | none => ""), showPassword := false }

/-- The `handleInputChange` handler: store the keystroke's value and, when an `onChange`
notifier is supplied, emit the same value to it (`none` = no call). -/
def handleInputChange (s : FieldState) (newValue : String) (hasOnChange : Bool) :
    FieldState × Option String :=
  ({ value := newValue, showPassword := s.showPassword },
   if hasOnChange then some newValue else none)

/-- The `handleClear` handler: reset the buffer to `""` and, when an `onChange` notifier
is supplied, emit `""` to it. -/
def handleClear (s : FieldState) (hasOnChange : Bool) : FieldState × Option String :=
  ({ value := "", showPassword := s.showPassword },
   if hasOnChange then some "" else none)

/-- The visibility toggle button's click: `setShowPassword(!showPassword)`. -/
def togglePassword (s : FieldState) : FieldState :=
  { value := s.value, showPassword := !s.showPassword }

/-- The rendered `type` attribute:
`isPassword && !showPassword ? 'password' : 'text'`. -/
def inputTypeAttr (isPassword : Bool) (s : FieldState) : String :=
  if isPassword && !s.showPassword then "password" else "text"

/-- Whether the clear button is rendered: `isClearable && value` (a non-empty
string is truthy). -/
def clearButtonShown (isClearable : Bool) (s : FieldState) : Bool :=
  isClearable && !(s.value == "")

/-! ### The controlled input field variant (`src/unnamed/part_001`) -/

/-- Whether `needle` occurs at the start of `hay`. -/
def listStartsWith : List Char → List Char → Bool
  | [], _ => true
  | _ :: _, [] => false
  | a :: as, b :: bs => a == b && listStartsWith as bs

/-- Whether `needle` occurs contiguously somewhere in `hay`; models
`String.prototype.includes`. -/
def listContainsSub (needle : List Char) : List Char → Bool
  | [] => listStartsWith needle []
  | hay@(_ :: t) => listStartsWith needle hay || listContainsSub needle t

/-- What the `part_001` variant renders, for the attributes the claims are
about: the input's `type`, whether the visibility toggle button appears,
and the passed-through controlled value. -/
structure Field1Render where
  inputType : String
  toggleShown : Bool
  shownValue : Option String
deriving DecidableEq, Repr

/-- The `part_001` variant's local state is a single `useState(false)`
visibility flag. -/
def initVisible1 : Bool := false

/-- The `part_001` render: `type` is `isPasswordVisible ? 'text' : 'password'`
(no password-mode prop exists), and the toggle button is guarded by
`label?.toLowerCase().includes('password')` (lowercasing maps `Char.toLower`
over the label's characters). -/
def renderField1 (label : Option String) (value : Option String)
    (isPasswordVisible : Bool) : Field1Render :=
  { inputType := if isPasswordVisible then "text" else "password",
    toggleShown :=
      (match label with
       | some l => listContainsSub ("password".toList) (l.toList.map Char.toLower)
       | none => false),
    shownValue := value }

/-! ### Concrete records used by closed witnesses and counterexamples -/

/-- A record with no fields at all. -/
def rec0 : Rec := { ref := 0, fields := [] }

/-- A record carrying `{ n: 3 }`. -/
def recN3 : Rec := { ref := 1, fields := [("n", Value.num 3)] }

/-- A record carrying `{ n: 1 }`. -/
def recN1 : Rec := { ref := 2, fields := [("n", Value.num 1)] }

/-- A record carrying `{ n: 2 }`. -/
def recN2 : Rec := { ref := 3, fields := [("n", Value.num 2)] }

/-- A column descriptor over the key `x`. -/
def colX : Column := { key := "x", header := "X" }

/-! ### Permutation facts about the comparator sort -/

theorem orderedInsert_perm {α : Type} (le : α → α → Bool) (a : α) :
    ∀ l : List α, (orderedInsert le a l).Perm (a :: l)
  | [] => List.Perm.refl [a]
  | b :: t => by
    unfold orderedInsert
    by_cases h : le a b = true
    · rw [if_pos h]
    · rw [if_neg h]
      exact ((orderedInsert_perm le a t).cons b).trans (List.Perm.swap a b t)

theorem sortRows_perm {α : Type} (le : α → α → Bool) :
    ∀ l : List α, (sortRows le l).Perm l
  | [] => List.Perm.refl []
  | a :: t => (orderedInsert_perm le a (sortRows le t)).trans ((sortRows_perm le t).cons a)

/-- C5: the sorted output of the table (for any sort configuration, including
none) is a permutation of the input record list: the same record references,
none added, none removed, and — the model being purely functional over
record values — none mutated. -/
theorem sortedData_perm (data : List Rec) (cfg : Option SortConfig) :
    (sortedData data cfg).Perm data := by
  cases cfg with
  | none => exact List.Perm.refl data
  | some c => exact sortRows_perm (sortLe c) data

/-- C6: a header click on key `k` yields sort state `⟨k, desc⟩` exactly when
`k` was already the active ascending key, and `⟨k, asc⟩` in every other case
(no active sort, a different key, or `k` already descending). -/
theorem handleSort_direction (sc : Option SortConfig) (k : String) :
    handleSort sc k =
      some { key := k,
             direction :=
               if sc = some { key := k, direction := Direction.asc } then Direction.desc
               else Direction.asc } := by
  cases sc with
  | none => simp [handleSort]
  | some c =>
    rcases c with ⟨ck, cd⟩
    by_cases hk : ck = k
    · subst hk
      cases cd <;> simp [handleSort]
    · cases cd <;> simp [handleSort, hk]

/-- C1 (amended): a column key missing on a record renders that cell as the
text `"undefined"` (`String(undefined)`), not as an empty string; no failure
occurs (`cellText` is total). -/
theorem missing_key_cell_text (r : Rec) (k : String) (h : getField r k = none) :
    cellText r k = "undefined" := by
  simp [cellText, h, stringOfValue]

/-- Witness for the amended C1 at the fieldless record and key `x`. -/
theorem missing_key_cell_text_witness : cellText rec0 "x" = "undefined" :=
  missing_key_cell_text rec0 "x" rfl

/-- C1 counterexample: for the fieldless record under column `x` the table
renders the cell text `"undefined"`, which is not the empty string the claim
asserts. -/
theorem missing_key_cell_not_blank :
    renderDataTable [rec0] [colX] false none = RenderOutput.table [["undefined"]] ∧
    cellText rec0 "x" ≠ "" :=
  ⟨rfl, by decide⟩

/-- C8: the render decision order — `loading` wins regardless of the data,
then the empty collection yields the empty-state placeholder, and otherwise
the table itself is rendered. -/
theorem render_decision_order (data : List Rec) (columns : List Column)
    (sc : Option SortConfig) :
    renderDataTable data columns true sc = RenderOutput.loadingPlaceholder ∧
    (data = [] → renderDataTable data columns false sc = RenderOutput.emptyPlaceholder) ∧
    (data ≠ [] → ∃ cells, renderDataTable data columns false sc = RenderOutput.table cells) := by
  refine ⟨rfl, fun h => ?_, fun h => ?_⟩
  · subst h; rfl
  · cases data with
    | nil => exact absurd rfl h
    | cons a t => exact ⟨_, rfl⟩

/-- Witness for C8 at concrete inputs: a non-empty collection still shows the
loading placeholder when loading, the empty collection shows the empty state,
and a non-empty collection shows the table. -/
theorem render_decision_order_witness :
    renderDataTable [rec0] [colX] true none = RenderOutput.loadingPlaceholder ∧
    renderDataTable [] [colX] false none = RenderOutput.emptyPlaceholder ∧
    ∃ cells, renderDataTable [rec0] [colX] false none = RenderOutput.table cells :=
  ⟨(render_decision_order [rec0] [colX] none).1,
   (render_decision_order [] [colX] none).2.1 rfl,
   (render_decision_order [rec0] [colX] none).2.2 (by decide)⟩

/-- Membership in the post-click selection list, by case on whether the
clicked row was already selected. -/
theorem mem_handleRowClick (sel : List Rec) (row x : Rec) :
    x ∈ handleRowClick sel row ↔
      (if row ∈ sel then x ∈ sel ∧ x ≠ row else x ∈ sel ∨ x = row) := by
  unfold handleRowClick
  have hc : sel.contains row = true ↔ row ∈ sel := List.elem_iff
  by_cases h : row ∈ sel
  · rw [if_pos (hc.mpr h), if_pos h]
    simp [List.mem_filter]
  · rw [if_neg (fun hcon => h (hc.mp hcon)), if_neg h]
    simp [List.mem_append]

/-- C7: toggling the same record twice in a row returns the selection set to
its original membership (the set of selected records is restored; the list
order may differ, but the spec's selection state is a set). -/
theorem row_toggle_twice (sel : List Rec) (row x : Rec) :
    (x ∈ handleRowClick (handleRowClick sel row) row ↔ x ∈ sel) := by
  by_cases hmem : row ∈ sel
  · have h1 : ∀ y, y ∈ handleRowClick sel row ↔ y ∈ sel ∧ y ≠ row := by
      intro y; rw [mem_handleRowClick, if_pos hmem]
    have hrow : row ∉ handleRowClick sel row := fun hr => ((h1 row).mp hr).2 rfl
    rw [mem_handleRowClick, if_neg hrow, h1 x]
    constructor
    · rintro (⟨hx, _⟩ | rfl)
      · exact hx
      · exact hmem
    · intro hx
      by_cases hxr : x = row
      · exact Or.inr hxr
      · exact Or.inl ⟨hx, hxr⟩
  · have h1 : ∀ y, y ∈ handleRowClick sel row ↔ y ∈ sel ∨ y = row := by
      intro y; rw [mem_handleRowClick, if_neg hmem]
    have hrow : row ∈ handleRowClick sel row := (h1 row).mpr (Or.inr rfl)
    rw [mem_handleRowClick, if_pos hrow]
    constructor
    · rintro ⟨hx, hxr⟩
      rcases (h1 x).mp hx with h | h
      · exact h
      · exact absurd h hxr
    · intro hx
      have hxr : x ≠ row := fun he => hmem (he ▸ hx)
      exact ⟨(h1 x).mpr (Or.inl hx), hxr⟩

/-- Witness for C7: toggling `recN3` twice over the selection `[recN3, recN1]`
leaves `recN1`'s membership as it was. -/
theorem row_toggle_twice_witness :
    (recN1 ∈ handleRowClick (handleRowClick [recN3, recN1] recN3) recN3 ↔
      recN1 ∈ [recN3, recN1]) :=
  row_toggle_twice [recN3, recN1] recN3 recN1

/-- C9: on a clearable field with a non-empty value the clear button is
rendered, clicking it resets the displayed value to the empty string, and a
supplied change notifier receives the empty string. -/
theorem clear_resets_and_notifies (s : FieldState) (hasOnChange : Bool)
    (h : s.value ≠ "") :
    clearButtonShown true s = true ∧
    (handleClear s hasOnChange).1.value = "" ∧
    (hasOnChange = true → (handleClear s hasOnChange).2 = some "") := by
  refine ⟨?_, rfl, fun hh => ?_⟩
  · simp [clearButtonShown, h]
  · simp [handleClear, hh]

/-- Witness for C9 at value `"abc"` with a notifier supplied. -/
theorem clear_resets_and_notifies_witness :
    clearButtonShown true { value := "abc", showPassword := false } = true ∧
    (handleClear { value := "abc", showPassword := false } true).1.value = "" ∧
    (handleClear { value := "abc", showPassword := false } true).2 = some "" := by
  have h := clear_resets_and_notifies { value := "abc", showPassword := false } true (by decide)
  exact ⟨h.1, h.2.1, h.2.2 rfl⟩

/-- C10: with password mode on, the freshly mounted field renders
`type="password"` whatever the seeded value; one toggle renders `type="text"`;
a second toggle renders `type="password"` again; and the toggle never touches
the text value. -/
theorem password_mode_toggle (v : Option String) (s : FieldState) :
    inputTypeAttr true (initFieldState v) = "password" ∧
    inputTypeAttr true (togglePassword (initFieldState v)) = "text" ∧
    inputTypeAttr true (togglePassword (togglePassword (initFieldState v))) = "password" ∧
    (togglePassword s).value = s.value :=
  ⟨rfl, rfl, rfl, rfl⟩

/-! ### Substring search used by the `part_001` toggle guard -/

theorem listStartsWith_iff (needle : List Char) :
    ∀ hay : List Char, (listStartsWith needle hay = true ↔ ∃ rest, hay = needle ++ rest) := by
  induction needle with
  | nil =>
    intro hay
    simp [listStartsWith]
  | cons a as ih =>
    intro hay
    cases hay with
    | nil =>
      simp [listStartsWith]
    | cons b bs =>
      rw [listStartsWith]
      simp only [Bool.and_eq_true, beq_iff_eq, ih bs]
      constructor
      · rintro ⟨rfl, rest, rfl⟩
        exact ⟨rest, rfl⟩
      · rintro ⟨rest, hr⟩
        rcases List.cons.injEq .. ▸ hr with ⟨rfl, rfl⟩
        exact ⟨rfl, rest, rfl⟩

theorem listContainsSub_iff (needle : List Char) :
    ∀ hay : List Char, (listContainsSub needle hay = true ↔
      ∃ pre post, hay = pre ++ needle ++ post) := by
  intro hay
  induction hay with
  | nil =>
    rw [listContainsSub]
    rw [listStartsWith_iff]
    constructor
    · rintro ⟨rest, hr⟩
      exact ⟨[], rest, hr⟩
    · rintro ⟨pre, post, hp⟩
      cases pre with
      | nil => exact ⟨post, hp⟩
      | cons p ps => simp at hp
  | cons h t ih =>
    rw [listContainsSub]
    simp only [Bool.or_eq_true, listStartsWith_iff, ih]
    constructor
    · rintro (⟨rest, hr⟩ | ⟨pre, post, hp⟩)
      · exact ⟨[], rest, hr⟩
      · exact ⟨h :: pre, post, by simp [hp]⟩
    · rintro ⟨pre, post, hp⟩
      cases pre with
      | nil => exact Or.inl ⟨post, hp⟩
      | cons p ps =>
        rcases List.cons.injEq .. ▸ hp with ⟨rfl, htail⟩
        exact Or.inr ⟨ps, post, htail⟩

/-- C3: the `part_001` field variant has no password-mode prop; with its
freshly mounted visibility flag it renders `type="password"` whatever the
caller passes, and its visibility toggle button appears exactly when the
label's lowercasing contains the substring `password`. -/
theorem field1_masked_and_toggle_guard (label : Option String) (value : Option String)
    (visible : Bool) :
    (renderField1 label value initVisible1).inputType = "password" ∧
    ((renderField1 label value visible).toggleShown = true ↔
      ∃ l pre post, label = some l ∧
        l.toList.map Char.toLower = pre ++ "password".toList ++ post) := by
  constructor
  · rfl
  · cases label with
    | none => simp [renderField1]
    | some l =>
      simp only [renderField1, Option.some.injEq]
      rw [listContainsSub_iff]
      constructor
      · rintro ⟨pre, post, hp⟩
        exact ⟨l, pre, post, rfl, hp⟩
      · rintro ⟨l', pre, post, hl, hp⟩
        rcases hl with rfl
        exact ⟨pre, post, hp⟩

/-- Witness for C3 at the label `Password`: the mounted render is masked and
the toggle is shown, via the lowercased decomposition `password = [] ++
password ++ []`. -/
theorem field1_masked_and_toggle_guard_witness :
    (renderField1 (some "Password") none initVisible1).inputType = "password" ∧
    (renderField1 (some "Password") none initVisible1).toggleShown = true :=
  ⟨(field1_masked_and_toggle_guard (some "Password") none initVisible1).1,
   (field1_masked_and_toggle_guard (some "Password") none initVisible1).2.mpr
     ⟨"Password", [], [], rfl, by decide⟩⟩

/-! ### The selection-subset invariant -/

/-- A row click keeps the selection inside the record collection as long as
the clicked row itself is in it. -/
theorem handleRowClick_mem_of_mem {d : List Rec} (sel : List Rec) (row : Rec)
    (hs : ∀ y ∈ sel, y ∈ d) (hr : row ∈ d) :
    ∀ x ∈ handleRowClick sel row, x ∈ d := by
  intro x hx
  rw [mem_handleRowClick] at hx
  by_cases h : row ∈ sel
  · rw [if_pos h] at hx
    exact hs x hx.1
  · rw [if_neg h] at hx
    rcases hx with hx | rfl
    · exact hs x hx
    · exact hr

/-- C2 (amended): while the `data` prop is held fixed, every state reachable
through row clicks and header clicks keeps the selection a subset of the
record collection; a re-render with a new `data` prop can break this, since
the stored selection is never pruned (see the counterexample). -/
theorem selection_subset_of_fixed_data (d : List Rec) (s : TableState)
    (h : TableReachesFixed (initTableState d) s) :
    ∀ x ∈ s.selectedRows, x ∈ s.data := by
  induction h with
  | refl => intro x hx; exact absurd hx (List.not_mem_nil x)
  | tail hreach hstep ih =>
    cases hstep with
    | rowClick r hr => exact handleRowClick_mem_of_mem _ r ih hr
    | headerClick k => exact ih

/-- Witness for the amended C2: after one click on `recN3` in a singleton
table, the selected record is in the collection. -/
theorem selection_subset_of_fixed_data_witness :
    recN3 ∈ ({ data := [recN3], selectedRows := [recN3], sortConfig := none } :
      TableState).data := by
  have hstep : TableStepFixed (initTableState [recN3])
      { data := [recN3], selectedRows := [recN3], sortConfig := none } :=
    TableStepFixed.rowClick (initTableState [recN3]) recN3 (by decide)
  have hreach : TableReachesFixed (initTableState [recN3])
      { data := [recN3], selectedRows := [recN3], sortConfig := none } :=
    TableReachesFixed.tail (TableReachesFixed.refl _) hstep
  exact selection_subset_of_fixed_data [recN3] _ hreach recN3 (by decide)

/-- C2 counterexample: select the only record, then re-render with an empty
`data` prop; the reached state keeps the stale selection, which is no subset
of the (now empty) record collection. -/
theorem selection_not_subset_after_data_update :
    TableReaches (initTableState [rec0])
      { data := [], selectedRows := [rec0], sortConfig := none } ∧
    ¬ (∀ x ∈ ({ data := [], selectedRows := [rec0], sortConfig := none } :
        TableState).selectedRows,
        x ∈ ({ data := [], selectedRows := [rec0], sortConfig := none } :
          TableState).data) := by
  constructor
  · have s1 : TableStep (initTableState [rec0])
        { data := [rec0], selectedRows := [rec0], sortConfig := none } :=
      TableStep.rowClick (initTableState [rec0]) rec0 (by decide)
    have s2 : TableStep { data := [rec0], selectedRows := [rec0], sortConfig := none }
        { data := [], selectedRows := [rec0], sortConfig := none } :=
      TableStep.setData { data := [rec0], selectedRows := [rec0], sortConfig := none } []
    exact TableReaches.tail (TableReaches.tail (TableReaches.refl _) s1) s2
  · intro hsub
    exact absurd (hsub rec0 (List.mem_singleton.mpr rfl)) (List.not_mem_nil rec0)

/-! ### Sortedness of the comparator sort, with hypotheses local to the list -/

theorem pairwise_orderedInsert {α : Type} (le : α → α → Bool) (a : α) :
    ∀ l : List α,
      (∀ b ∈ l, le a b = true ∨ le b a = true) →
      (∀ b ∈ l, ∀ c ∈ l, le a b = true → le b c = true → le a c = true) →
      List.Pairwise (fun x y => le x y = true) l →
      List.Pairwise (fun x y => le x y = true) (orderedInsert le a l) := by
  intro l
  induction l with
  | nil =>
    intro _ _ _
    simp [orderedInsert]
  | cons b t ih =>
    intro htotal htrans hp
    simp only [orderedInsert]
    by_cases h : le a b = true
    · rw [if_pos h]
      refine List.pairwise_cons.mpr ⟨?_, hp⟩
      intro x hx
      rcases List.mem_cons.mp hx with rfl | hxt
      · exact h
      · exact htrans b (List.mem_cons_self b t) x (List.mem_cons_of_mem b hxt) h
          ((List.pairwise_cons.mp hp).1 x hxt)
    · rw [if_neg h]
      refine List.pairwise_cons.mpr ⟨?_, ?_⟩
      · intro x hx
        have hx' : x ∈ a :: t := (orderedInsert_perm le a t).mem_iff.mp hx
        rcases List.mem_cons.mp hx' with rfl | hxt
        · rcases htotal b (List.mem_cons_self b t) with hab | hba
          · exact absurd hab h
          · exact hba
        · exact (List.pairwise_cons.mp hp).1 x hxt
      · exact ih (fun c hc => htotal c (List.mem_cons_of_mem b hc))
          (fun c hc d hd => htrans c (List.mem_cons_of_mem b hc) d (List.mem_cons_of_mem b hd))
          (List.pairwise_cons.mp hp).2

theorem pairwise_sortRows {α : Type} (le : α → α → Bool) :
    ∀ l : List α,
      (∀ a ∈ l, ∀ b ∈ l, le a b = true ∨ le b a = true) →
      (∀ a ∈ l, ∀ b ∈ l, ∀ c ∈ l, le a b = true → le b c = true → le a c = true) →
      List.Pairwise (fun x y => le x y = true) (sortRows le l) := by
  intro l
  induction l with
  | nil =>
    intro _ _
    simp [sortRows]
  | cons a t ih =>
    intro htotal htrans
    show List.Pairwise (fun x y => le x y = true) (orderedInsert le a (sortRows le t))
    have hmem : ∀ x, x ∈ sortRows le t → x ∈ t := fun x hx => (sortRows_perm le t).mem_iff.mp hx
    apply pairwise_orderedInsert
    · intro b hb
      exact htotal a (List.mem_cons_self a t) b (List.mem_cons_of_mem a (hmem b hb))
    · intro b hb c hc hab hbc
      exact htrans a (List.mem_cons_self a t) b (List.mem_cons_of_mem a (hmem b hb))
        c (List.mem_cons_of_mem a (hmem c hc)) hab hbc
    · exact ih
        (fun x hx y hy => htotal x (List.mem_cons_of_mem a hx) y (List.mem_cons_of_mem a hy))
        (fun x hx y hy z hz => htrans x (List.mem_cons_of_mem a hx)
          y (List.mem_cons_of_mem a hy) z (List.mem_cons_of_mem a hz))

theorem eq_of_perm_of_pairwise {α : Type} (le : α → α → Bool) :
    ∀ l₁ l₂ : List α, l₁.Perm l₂ →
      List.Pairwise (fun x y => le x y = true) l₁ →
      List.Pairwise (fun x y => le x y = true) l₂ →
      (∀ a ∈ l₁, ∀ b ∈ l₁, le a b = true → le b a = true → a = b) →
      l₁ = l₂
  | [], l₂ => fun hp _ _ _ => (List.nil_perm.mp hp).symm
  | a :: t₁, [] => fun hp _ _ _ => absurd (List.perm_nil.mp hp) (List.cons_ne_nil a t₁)
  | a :: t₁, b :: t₂ => fun hperm h₁ h₂ hanti => by
    by_cases hab : a = b
    · subst hab
      have heq : t₁ = t₂ :=
        eq_of_perm_of_pairwise le t₁ t₂ hperm.cons_inv (List.pairwise_cons.mp h₁).2
          (List.pairwise_cons.mp h₂).2
          (fun x hx y hy => hanti x (List.mem_cons_of_mem a hx) y (List.mem_cons_of_mem a hy))
      rw [heq]
    · exfalso
      have ha2 : a ∈ b :: t₂ := hperm.mem_iff.mp (List.mem_cons_self a t₁)
      have hat2 : a ∈ t₂ := by
        rcases List.mem_cons.mp ha2 with h | h
        · exact absurd h hab
        · exact h
      have hb1 : b ∈ a :: t₁ := hperm.mem_iff.mpr (List.mem_cons_self b t₂)
      have hbt1 : b ∈ t₁ := by
        rcases List.mem_cons.mp hb1 with h | h
        · exact absurd h.symm hab
        · exact h
      have hle1 : le a b = true := (List.pairwise_cons.mp h₁).1 b hbt1
      have hle2 : le b a = true := (List.pairwise_cons.mp h₂).1 a hat2
      exact hab (hanti a (List.mem_cons_self a t₁) b (List.mem_cons_of_mem a hbt1) hle1 hle2)

/-- When `le` is a linear order on the members of `l` and `le'` is its flip,
sorting by `le` gives the reverse of sorting by `le'`. -/
theorem sortRows_reverse_of_flip {α : Type} (le le' : α → α → Bool) (l : List α)
    (hflip : ∀ a b : α, le' a b = le b a)
    (htotal : ∀ a ∈ l, ∀ b ∈ l, le a b = true ∨ le b a = true)
    (htrans : ∀ a ∈ l, ∀ b ∈ l, ∀ c ∈ l, le a b = true → le b c = true → le a c = true)
    (hanti : ∀ a ∈ l, ∀ b ∈ l, le a b = true → le b a = true → a = b) :
    sortRows le l = (sortRows le' l).reverse := by
  have htotal' : ∀ a ∈ l, ∀ b ∈ l, le' a b = true ∨ le' b a = true := by
    intro a ha b hb
    rw [hflip a b, hflip b a]
    exact (htotal a ha b hb).symm
  have htrans' : ∀ a ∈ l, ∀ b ∈ l, ∀ c ∈ l,
      le' a b = true → le' b c = true → le' a c = true := by
    intro a ha b hb c hc h1 h2
    rw [hflip] at h1 h2 ⊢
    exact htrans c hc b hb a ha h2 h1
  have hA := pairwise_sortRows le l htotal htrans
  have hD := pairwise_sortRows le' l htotal' htrans'
  have hpermA := sortRows_perm le l
  have hpermD := sortRows_perm le' l
  have hperm : (sortRows le l).Perm ((sortRows le' l).reverse) :=
    hpermA.trans (((List.reverse_perm (sortRows le' l)).trans hpermD).symm)
  have hDrev : List.Pairwise (fun x y => le x y = true) ((sortRows le' l).reverse) := by
    rw [List.pairwise_reverse]
    refine hD.imp ?_
    intro a b h
    rw [hflip] at h
    exact h
  exact eq_of_perm_of_pairwise le _ _ hperm hA hDrev
    (fun a ha b hb => hanti a (hpermA.mem_iff.mp ha) b (hpermA.mem_iff.mp hb))

/-! ### The comparator as an order on well-typed columns -/

theorem compareRows_desc_eq_swap (k : String) (a b : Rec) :
    compareRows { key := k, direction := Direction.desc } a b
      = compareRows { key := k, direction := Direction.asc } b a := by
  unfold compareRows
  cases hga : getField a k with
  | none =>
    cases hgb : getField b k with
    | none => rfl
    | some v => cases v <;> rfl
  | some va =>
    cases hgb : getField b k with
    | none => cases va <;> rfl
    | some vb =>
      cases va with
      | str x =>
        cases vb with
        | str y =>
          rcases lt_trichotomy x y with h | h | h
          · simp [h, lt_asymm h]
          · subst h
            simp [lt_irrefl]
          · simp [h, lt_asymm h]
        | num y => rfl
        | boolean y => rfl
      | num x =>
        cases vb with
        | str y => rfl
        | num y => rfl
        | boolean y => rfl
      | boolean x => cases vb <;> rfl

theorem sortLe_asc_num_iff (k : String) (a b : Rec) (x y : Int)
    (ha : getField a k = some (Value.num x)) (hb : getField b k = some (Value.num y)) :
    (sortLe { key := k, direction := Direction.asc } a b = true ↔ x ≤ y) := by
  unfold sortLe compareRows
  rw [ha, hb]
  simp only [decide_eq_true_eq]
  show x - y ≤ 0 ↔ x ≤ y
  omega

theorem sortLe_asc_str_iff (k : String) (a b : Rec) (x y : String)
    (ha : getField a k = some (Value.str x)) (hb : getField b k = some (Value.str y)) :
    (sortLe { key := k, direction := Direction.asc } a b = true ↔ x ≤ y) := by
  unfold sortLe compareRows
  rw [ha, hb]
  simp only [decide_eq_true_eq]
  show ((if x < y then (-1 : Int) else if y < x then 1 else 0) ≤ 0) ↔ x ≤ y
  rcases lt_trichotomy x y with h | h | h
  · simp [h, le_of_lt h]
  · subst h
    simp [lt_irrefl]
  · simp [h, lt_asymm h, not_le_of_gt h]

/-- The record's value under `k` is a number (JavaScript `typeof === 'number'`
on the compared field). -/
def numericAt (k : String) (r : Rec) : Bool :=
  match getField r k with
  | some (Value.num _) => true
  | _ => false

/-- The record's value under `k` is a string. -/
def stringAt (k : String) (r : Rec) : Bool :=
  match getField r k with
  | some (Value.str _) => true
  | _ => false

theorem numericAt_spec (k : String) (r : Rec) (h : numericAt k r = true) :
    ∃ x : Int, getField r k = some (Value.num x) := by
  unfold numericAt at h
  revert h
  cases hg : getField r k with
  | none => intro h; exact (Bool.false_ne_true h).elim
  | some v =>
    cases v with
    | str s => intro h; exact (Bool.false_ne_true h).elim
    | num x => intro _; exact ⟨x, rfl⟩
    | boolean c => intro h; exact (Bool.false_ne_true h).elim

theorem stringAt_spec (k : String) (r : Rec) (h : stringAt k r = true) :
    ∃ x : String, getField r k = some (Value.str x) := by
  unfold stringAt at h
  revert h
  cases hg : getField r k with
  | none => intro h; exact (Bool.false_ne_true h).elim
  | some v =>
    cases v with
    | str s => intro _; exact ⟨s, rfl⟩
    | num x => intro h; exact (Bool.false_ne_true h).elim
    | boolean c => intro h; exact (Bool.false_ne_true h).elim

/-- C4: when every record of the collection holds a comparable value under
the sort key (all numbers or all strings) and no two records share a value
there, sorting ascending and sorting descending by that key yield exact
reverses of each other. -/
theorem sort_asc_eq_reverse_desc (k : String) (l : List Rec)
    (hcomp : (∀ r ∈ l, numericAt k r = true) ∨ (∀ r ∈ l, stringAt k r = true))
    (hinj : ∀ a ∈ l, ∀ b ∈ l, getField a k = getField b k → a = b) :
    sortedData l (some { key := k, direction := Direction.asc })
      = (sortedData l (some { key := k, direction := Direction.desc })).reverse := by
  show sortRows (sortLe { key := k, direction := Direction.asc }) l
      = (sortRows (sortLe { key := k, direction := Direction.desc }) l).reverse
  apply sortRows_reverse_of_flip
  · intro a b
    unfold sortLe
    rw [compareRows_desc_eq_swap]
  · rcases hcomp with hnum | hstr
    · intro a ha b hb
      obtain ⟨x, hx⟩ := numericAt_spec k a (hnum a ha)
      obtain ⟨y, hy⟩ := numericAt_spec k b (hnum b hb)
      rcases le_total x y with h | h
      · exact Or.inl ((sortLe_asc_num_iff k a b x y hx hy).mpr h)
      · exact Or.inr ((sortLe_asc_num_iff k b a y x hy hx).mpr h)
    · intro a ha b hb
      obtain ⟨x, hx⟩ := stringAt_spec k a (hstr a ha)
      obtain ⟨y, hy⟩ := stringAt_spec k b (hstr b hb)
      rcases le_total x y with h | h
      · exact Or.inl ((sortLe_asc_str_iff k a b x y hx hy).mpr h)
      · exact Or.inr ((sortLe_asc_str_iff k b a y x hy hx).mpr h)
  · rcases hcomp with hnum | hstr
    · intro a ha b hb c hc h1 h2
      obtain ⟨x, hx⟩ := numericAt_spec k a (hnum a ha)
      obtain ⟨y, hy⟩ := numericAt_spec k b (hnum b hb)
      obtain ⟨z, hz⟩ := numericAt_spec k c (hnum c hc)
      exact (sortLe_asc_num_iff k a c x z hx hz).mpr
        (le_trans ((sortLe_asc_num_iff k a b x y hx hy).mp h1)
          ((sortLe_asc_num_iff k b c y z hy hz).mp h2))
    · intro a ha b hb c hc h1 h2
      obtain ⟨x, hx⟩ := stringAt_spec k a (hstr a ha)
      obtain ⟨y, hy⟩ := stringAt_spec k b (hstr b hb)
      obtain ⟨z, hz⟩ := stringAt_spec k c (hstr c hc)
      exact (sortLe_asc_str_iff k a c x z hx hz).mpr
        (le_trans ((sortLe_asc_str_iff k a b x y hx hy).mp h1)
          ((sortLe_asc_str_iff k b c y z hy hz).mp h2))
  · rcases hcomp with hnum | hstr
    · intro a ha b hb h1 h2
      obtain ⟨x, hx⟩ := numericAt_spec k a (hnum a ha)
      obtain ⟨y, hy⟩ := numericAt_spec k b (hnum b hb)
      have hxy : x = y := le_antisymm ((sortLe_asc_num_iff k a b x y hx hy).mp h1)
        ((sortLe_asc_num_iff k b a y x hy hx).mp h2)
      exact hinj a ha b hb (by rw [hx, hy, hxy])
    · intro a ha b hb h1 h2
      obtain ⟨x, hx⟩ := stringAt_spec k a (hstr a ha)
      obtain ⟨y, hy⟩ := stringAt_spec k b (hstr b hb)
      have hxy : x = y := le_antisymm ((sortLe_asc_str_iff k a b x y hx hy).mp h1)
        ((sortLe_asc_str_iff k b a y x hy hx).mp h2)
      exact hinj a ha b hb (by rw [hx, hy, hxy])

/-- Witness for C4 at the spec's own example `[{n:3},{n:1},{n:2}]` sorted by
`n`. -/
theorem sort_asc_eq_reverse_desc_witness :
    sortedData [recN3, recN1, recN2] (some { key := "n", direction := Direction.asc })
      = (sortedData [recN3, recN1, recN2]
          (some { key := "n", direction := Direction.desc })).reverse :=
  sort_asc_eq_reverse_desc "n" [recN3, recN1, recN2] (Or.inl (by decide)) (by decide)
